import Mathlib

/-!
# Verification of the Env_Aware_Relational_Memory decaying-belief tracker

Shallow embedding of `src/Env_Aware_Relational_Memory/env_state_controller.py`.
The Python `dict` of token weights is modelled as an association list of
`String × ℚ` (insertion-ordered, first occurrence read, as a Python dict with
unique keys behaves); Python floats are modelled as exact rationals.
-/

/-- The token-weight mapping of `_TokenMemoryShim.token_weights`. -/
abbrev Weights := List (String × ℚ)

/-- `self.token_weights.get(t, 0.0)`: the weight of the first entry for `t`,
or `0` when `t` is absent. -/
def getW : Weights → String → ℚ
  | [], _ => 0
  | (k, w) :: rest, t => if k = t then w else getW rest t

/-- `self.token_weights[t] = v`: replace the value at key `t` in place
(keeping its position) or append a fresh entry, as a Python dict does. -/
def setW : Weights → String → ℚ → Weights
  | [], t, v => [(t, v)]
  | (k, w) :: rest, t, v =>
      if k = t then (t, v) :: rest else (k, w) :: setW rest t v

/-- `_TokenMemoryShim.update_weights`: for each token `t` of the list, in
order, set its weight to `prev * decay + intensity` where `prev` is the
current weight (`0.0` when absent). -/
def update_weights (decay : ℚ) (m : Weights) (tokens : List String)
    (intensity : ℚ) : Weights :=
  tokens.foldl (fun acc t => setW acc t (getW acc t * decay + intensity)) m

/-- `_TokenMemoryShim.decay_weights`: multiply every stored weight by the
decay factor, deleting any entry whose new weight falls below `1e-6`. -/
def decay_weights (decay : ℚ) : Weights → Weights
  | [] => []
  | (k, w) :: rest =>
      if w * decay < 1 / 1000000 then decay_weights decay rest
      else (k, w * decay) :: decay_weights decay rest

/-- `dict.__contains__`: whether some entry carries key `k`. -/
def hasKey (m : Weights) (k : String) : Bool :=
  m.any (fun p => p.1 == k)

/-- `EnvironmentStateTracker`: the shim's mapping plus the decay and
threshold parameters (`__init__`). -/
structure EnvironmentStateTracker where
  decay : ℚ
  threshold : ℚ
  weights : Weights

/-- `EnvironmentStateTracker.observe`: delegate to `update_weights`. -/
def observe (tr : EnvironmentStateTracker) (tokens : List String)
    (intensity : ℚ) : EnvironmentStateTracker :=
  { tr with weights := update_weights tr.decay tr.weights tokens intensity }

/-- `EnvironmentStateTracker.hypothesis`: the weight for `key` (`0.0` when
absent) is at least the threshold. -/
def hypothesis (tr : EnvironmentStateTracker) (key : String) : Bool :=
  decide (tr.threshold ≤ getW tr.weights key)

/-- The decision dict returned by `RelationalController.policy_for_pdf_request`. -/
structure DecisionRecord where
  assumption : String
  action : String
  command : String
deriving DecidableEq, Repr

/-- `RelationalController.policy_for_pdf_request`: the nested-conditional
policy of the source, with Python's `brief_path_md[:-3]` rendered as
`String.take` of all but the last three characters (empty for length ≤ 3). -/
def policy_for_pdf_request (env : EnvironmentStateTracker)
    (brief_path_md : String) (engine : String := "xelatex") : DecisionRecord :=
  let has_windows := hypothesis env "Windows"
  let has_pwsh := hypothesis env "PowerShell"
  let has_pandoc := hypothesis env "PandocInstalled"
  if has_windows && has_pwsh && has_pandoc then
    { assumption := "Windows + PowerShell + Pandoc present"
      action := "Provide direct conversion command"
      command := "pandoc \"" ++ brief_path_md ++ "\" -o \""
        ++ brief_path_md.take (brief_path_md.length - 3)
        ++ ".pdf\" --pdf-engine=" ++ engine }
  else if has_windows && has_pwsh && !has_pandoc then
    { assumption := "Windows + PowerShell; Pandoc uncertain"
      action := "Offer install path then conversion command"
      command := "winget install Pandoc.Pandoc" }
  else
    { assumption := "Environment uncertain"
      action := "Ask one clarifying question to establish environment"
      command := "Do you have Pandoc installed and can you run PowerShell on Windows?" }

/-- The spec's priority-ordered decision table (§4.2), first matching row
wins, as a pure function of the three hypothesis booleans. Written from the
spec's words, to be compared with `policy_for_pdf_request`. -/
def decide_table_spec (osH shellH toolH : Bool) (path engine : String) :
    DecisionRecord :=
  match osH, shellH, toolH with
  | true, true, true =>
      { assumption := "Windows + PowerShell + Pandoc present"
        action := "Provide direct conversion command"
        command := "pandoc \"" ++ path ++ "\" -o \""
          ++ path.take (path.length - 3) ++ ".pdf\" --pdf-engine=" ++ engine }
  | true, true, false =>
      { assumption := "Windows + PowerShell; Pandoc uncertain"
        action := "Offer install path then conversion command"
        command := "winget install Pandoc.Pandoc" }
  | _, _, _ =>
      { assumption := "Environment uncertain"
        action := "Ask one clarifying question to establish environment"
        command := "Do you have Pandoc installed and can you run PowerShell on Windows?" }

/-- One call of the tracker's mutating interface. -/
inductive TrackerOp where
  | observeOp (tokens : List String) (intensity : ℚ)
  | decayPass

/-- The precondition the spec puts on each call: intensities are positive. -/
def validOp : TrackerOp → Prop
  | .observeOp _ i => 0 < i
  | .decayPass => True

/-- Apply one tracker operation to the mapping. -/
def applyOp (decay : ℚ) (m : Weights) : TrackerOp → Weights
  | .observeOp tokens i => update_weights decay m tokens i
  | .decayPass => decay_weights decay m

/-- Run a sequence of tracker operations from a given mapping. -/
def runOps (decay : ℚ) (m : Weights) (ops : List TrackerOp) : Weights :=
  ops.foldl (applyOp decay) m

/-- `demo_environment_awareness`: tracker with decay `0.9`, threshold `0.6`. -/
def demoEnv0 : EnvironmentStateTracker :=
  { decay := 9/10, threshold := 6/10, weights := [] }

/-- After turn 1: `observe(["Windows", "PowerShell"], intensity=0.7)`. -/
def demoEnv1 : EnvironmentStateTracker :=
  observe demoEnv0 ["Windows", "PowerShell"] (7/10)

/-- After turn 2: `observe(["PandocInstalled", "PDFExportSuccess"], intensity=0.8)`. -/
def demoEnv2 : EnvironmentStateTracker :=
  observe demoEnv1 ["PandocInstalled", "PDFExportSuccess"] (8/10)

/-- After turn 3: `observe(["PowerShell"], intensity=0.6)`. -/
def demoEnv3 : EnvironmentStateTracker :=
  observe demoEnv2 ["PowerShell"] (6/10)

/-- The demo's document path. -/
def demoPath : String :=
  "C:\\Users\\Robin_B_Macomber\\ANGEL_ML\\ANGEL.AI_Business\\ANGEL_System_Brief.md"

/-- A concrete tracker in which all three policy hypotheses hold. -/
def allToolsEnv : EnvironmentStateTracker :=
  { decay := 95/100, threshold := 6/10
    weights := [("Windows", 1), ("PowerShell", 1), ("PandocInstalled", 1)] }

lemma getW_setW_same (m : Weights) (t : String) (v : ℚ) :
    getW (setW m t v) t = v := by
  induction m with
  | nil => simp [getW, setW]
  | cons p rest ih =>
      obtain ⟨k, w⟩ := p
      by_cases h : k = t
      · simp [getW, setW, h]
      · simp [getW, setW, h, ih]

lemma getW_setW_ne (m : Weights) (t k : String) (v : ℚ) (h : t ≠ k) :
    getW (setW m t v) k = getW m k := by
  induction m with
  | nil => simp [getW, setW, h]
  | cons p rest ih =>
      obtain ⟨k', w⟩ := p
      by_cases h' : k' = t
      · simp [getW, setW, h', h]
      · simp only [setW, if_neg h', getW]
        by_cases h'' : k' = k <;> simp [getW, h'', ih]

lemma update_weights_cons (d i : ℚ) (m : Weights) (x : String)
    (rest : List String) :
    update_weights d m (x :: rest) i
      = update_weights d (setW m x (getW m x * d + i)) rest i := rfl

/-- The weight of `t` after one `update_weights` call: the previous weight is
scaled by `decay` once per occurrence of `t` in the token list, and each
occurrence contributes the intensity scaled by the decays applied after it. -/
lemma getW_update_count (d i : ℚ) (m : Weights) (tokens : List String)
    (t : String) :
    getW (update_weights d m tokens i) t
      = getW m t * d ^ tokens.count t
        + i * ∑ j ∈ Finset.range (tokens.count t), d ^ j := by
  induction tokens generalizing m with
  | nil => simp [update_weights]
  | cons x rest ih =>
      rw [update_weights_cons]
      by_cases h : x = t
      · subst h
        rw [ih, getW_setW_same]
        simp only [List.count_cons_self]
        rw [Finset.sum_range_succ (fun j => d ^ j)]
        ring
      · rw [ih, getW_setW_ne m x t _ h]
        simp [List.count_cons_of_ne (fun hc => h hc.symm)]

lemma decay_mem_lb (d : ℚ) (m : Weights) :
    ∀ p ∈ decay_weights d m, 1 / 1000000 ≤ p.2 := by
  induction m with
  | nil => simp [decay_weights]
  | cons q rest ih =>
      obtain ⟨k, w⟩ := q
      intro p hp
      simp only [decay_weights] at hp
      by_cases h : w * d < 1 / 1000000
      · rw [if_pos h] at hp
        exact ih p hp
      · rw [if_neg h] at hp
        rcases List.mem_cons.mp hp with hp | hp
        · subst hp; exact le_of_not_lt h
        · exact ih p hp

lemma decay_mem_src (d : ℚ) (m : Weights) (k : String) (w' : ℚ)
    (h : (k, w') ∈ decay_weights d m) : ∃ w, (k, w) ∈ m ∧ w' = w * d := by
  induction m with
  | nil => simp [decay_weights] at h
  | cons q rest ih =>
      obtain ⟨k', w⟩ := q
      simp only [decay_weights] at h
      by_cases hc : w * d < 1 / 1000000
      · rw [if_pos hc] at h
        obtain ⟨v, hv, hw⟩ := ih h
        exact ⟨v, List.mem_cons_of_mem _ hv, hw⟩
      · rw [if_neg hc] at h
        rcases List.mem_cons.mp h with h | h
        · rw [Prod.mk.injEq] at h
          exact ⟨w, by simp [h.1], h.2⟩
        · obtain ⟨v, hv, hw⟩ := ih h
          exact ⟨v, List.mem_cons_of_mem _ hv, hw⟩

lemma decay_mem_complete (d : ℚ) (m : Weights) (k : String) (w : ℚ)
    (hm : (k, w) ∈ m) (hge : ¬(w * d < 1 / 1000000)) :
    (k, w * d) ∈ decay_weights d m := by
  induction m with
  | nil => simp at hm
  | cons q rest ih =>
      obtain ⟨k', v⟩ := q
      simp only [decay_weights]
      rcases List.mem_cons.mp hm with h | h
      · obtain ⟨hk, hv⟩ := Prod.ext_iff.mp h
        subst hk; subst hv
        rw [if_neg hge]
        exact List.mem_cons_self _ _
      · by_cases hc : v * d < 1 / 1000000
        · rw [if_pos hc]
          exact ih h
        · rw [if_neg hc]
          exact List.mem_cons_of_mem _ (ih h)

/-- All weights of a mapping are non-negative. -/
def nonnegW (m : Weights) : Prop := ∀ p ∈ m, 0 ≤ p.2

lemma getW_nonneg (m : Weights) (t : String) (h : nonnegW m) :
    0 ≤ getW m t := by
  induction m with
  | nil => simp [getW]
  | cons p rest ih =>
      obtain ⟨k, w⟩ := p
      by_cases hk : k = t
      · simpa [getW, hk] using h (k, w) (List.mem_cons_self _ _)
      · simp only [getW, if_neg hk]
        exact ih fun q hq => h q (List.mem_cons_of_mem _ hq)

lemma nonnegW_setW (m : Weights) (t : String) (v : ℚ)
    (h : nonnegW m) (hv : 0 ≤ v) : nonnegW (setW m t v) := by
  induction m with
  | nil => intro p hp; simp [setW] at hp; simp [hp, hv]
  | cons q rest ih =>
      obtain ⟨k, w⟩ := q
      by_cases hk : k = t
      · intro p hp
        simp only [setW, if_pos hk, List.mem_cons] at hp
        rcases hp with hp | hp
        · simp [hp, hv]
        · exact h p (List.mem_cons_of_mem _ hp)
      · intro p hp
        simp only [setW, if_neg hk, List.mem_cons] at hp
        rcases hp with hp | hp
        · exact hp ▸ h (k, w) (List.mem_cons_self _ _)
        · exact ih (fun q hq => h q (List.mem_cons_of_mem _ hq)) p hp

lemma nonnegW_update (d i : ℚ) (m : Weights) (tokens : List String)
    (hd : 0 ≤ d) (hi : 0 ≤ i) (h : nonnegW m) :
    nonnegW (update_weights d m tokens i) := by
  induction tokens generalizing m with
  | nil => exact h
  | cons x rest ih =>
      rw [update_weights_cons]
      exact ih _ (nonnegW_setW _ _ _ h
        (add_nonneg (mul_nonneg (getW_nonneg _ _ h) hd) hi))

lemma nonnegW_decay (d : ℚ) (m : Weights) :
    nonnegW (decay_weights d m) := by
  intro p hp
  exact le_trans (by norm_num) (decay_mem_lb d m p hp)

lemma nonnegW_runOps (d : ℚ) (ops : List TrackerOp) (hd : 0 ≤ d) :
    ∀ m, (∀ op ∈ ops, validOp op) → nonnegW m → nonnegW (runOps d m ops) := by
  induction ops with
  | nil => intro m _ h; exact h
  | cons op rest ih =>
      intro m hops h
      have hstep : nonnegW (applyOp d m op) := by
        cases op with
        | observeOp tokens i =>
            exact nonnegW_update d i m tokens hd
              (le_of_lt (hops _ (List.mem_cons_self _ _))) h
        | decayPass => exact nonnegW_decay d m
      exact ih (applyOp d m op)
        (fun o ho => hops o (List.mem_cons_of_mem _ ho)) hstep

/-- A heap of dict objects, so that the aliasing behaviour of
`get_weights` (`return dict(self.token_weights)`) is observable: a
reference is an index into the heap. -/
structure DictHeap where
  cells : List Weights

/-- Dereference a dict. -/
def heapGet (h : DictHeap) (r : ℕ) : Weights := h.cells.getD r []

/-- Mutate the dict behind a reference in place. -/
def heapSet (h : DictHeap) (r : ℕ) (w : Weights) : DictHeap :=
  ⟨h.cells.set r w⟩

/-- `dict(...)`: allocate a fresh dict object with the given contents. -/
def heapAlloc (h : DictHeap) (w : Weights) : DictHeap × ℕ :=
  (⟨h.cells ++ [w]⟩, h.cells.length)

/-- `_TokenMemoryShim.get_weights`: `return dict(self.token_weights)` — a
fresh dict holding the same entries as the internal one at `iref`. -/
def get_weights (h : DictHeap) (iref : ℕ) : DictHeap × ℕ :=
  heapAlloc h (heapGet h iref)

lemma decay_iterate_mem (d : ℚ) (k : String) :
    ∀ (n : ℕ) (m : Weights) (w' : ℚ), (k, w') ∈ (decay_weights d)^[n] m →
      ∃ w, (k, w) ∈ m ∧ w' = w * d ^ n := by
  intro n
  induction n with
  | zero => intro m w' h; exact ⟨w', by simpa using h, by simp⟩
  | succ n ih =>
      intro m w' h
      rw [Function.iterate_succ_apply'] at h
      obtain ⟨w₁, hw₁, hmul⟩ := decay_mem_src d _ k w' h
      obtain ⟨w, hw, hpow⟩ := ih m w₁ hw₁
      exact ⟨w, hw, by rw [hmul, hpow, pow_succ]; ring⟩

lemma le_foldr_max (l : List ℚ) (x : ℚ) (hx : x ∈ l) :
    x ≤ l.foldr max 0 := by
  induction l with
  | nil => simp at hx
  | cons y rest ih =>
      rcases List.mem_cons.mp hx with h | h
      · subst h; exact le_max_left _ _
      · exact le_trans (ih h) (le_max_right _ _)

lemma foldr_max_nonneg (l : List ℚ) : 0 ≤ l.foldr max 0 := by
  induction l with
  | nil => simp
  | cons y rest ih => exact le_trans ih (le_max_right _ _)

/-- After enough decay passes with factor strictly below one, the mapping is
empty. -/
lemma decay_iterate_eventually_empty (d : ℚ) (m : Weights)
    (hd0 : 0 < d) (hd1 : d < 1) :
    ∃ n : ℕ, (decay_weights d)^[n] m = [] := by
  set B : ℚ := (m.map Prod.snd).foldr max 0 with hB
  have hBnn : 0 ≤ B := foldr_max_nonneg _
  have hBpos : 0 < B + 1 := by linarith
  obtain ⟨n, hn⟩ :=
    exists_pow_lt_of_lt_one (div_pos (by norm_num : (0:ℚ) < 1 / 1000000) hBpos) hd1
  refine ⟨n + 1, List.eq_nil_iff_forall_not_mem.mpr ?_⟩
  rintro ⟨k, w'⟩ hmem
  have hlb : 1 / 1000000 ≤ w' := by
    rw [Function.iterate_succ_apply'] at hmem
    exact decay_mem_lb d _ _ hmem
  obtain ⟨w, hwmem, hw'⟩ := decay_iterate_mem d k (n + 1) m w' hmem
  have hwB : w ≤ B := le_foldr_max _ _ (List.mem_map_of_mem Prod.snd hwmem)
  have hdpow : (0:ℚ) < d ^ (n + 1) := pow_pos hd0 _
  have hub : w' < 1 / 1000000 := by
    rcases le_or_lt w 0 with hw0 | hw0
    · have : w' ≤ 0 := by
        rw [hw']
        exact mul_nonpos_of_nonpos_of_nonneg hw0 (le_of_lt hdpow)
      linarith
    · have h1 : w' ≤ (B + 1) * d ^ (n + 1) := by
        rw [hw']
        exact mul_le_mul_of_nonneg_right (by linarith) (le_of_lt hdpow)
      have h2 : d ^ (n + 1) ≤ d ^ n := by
        rw [pow_succ]
        nth_rewrite 2 [(mul_one (d ^ n)).symm]
        exact mul_le_mul_of_nonneg_left (le_of_lt hd1) (le_of_lt (pow_pos hd0 n))
      have h3 : (B + 1) * d ^ n < (B + 1) * (1 / 1000000 / (B + 1)) :=
        mul_lt_mul_of_pos_left hn hBpos
      have h4 : (B + 1) * (1 / 1000000 / (B + 1)) = 1 / 1000000 := by
        field_simp
        ring
      nlinarith [mul_le_mul_of_nonneg_left h2 (le_of_lt hBpos)]
  linarith

lemma getW_eq_zero_of_absent (m : Weights) (key : String)
    (h : ∀ p ∈ m, p.1 ≠ key) : getW m key = 0 := by
  induction m with
  | nil => simp [getW]
  | cons p rest ih =>
      obtain ⟨k, w⟩ := p
      have hk : k ≠ key := h (k, w) (List.mem_cons_self _ _)
      simp only [getW, if_neg hk]
      exact ih fun q hq => h q (List.mem_cons_of_mem _ hq)

/-- A tracker holding no evidence at all. -/
def emptyEnv : EnvironmentStateTracker :=
  { decay := 95/100, threshold := 6/10, weights := [] }

/-- C1: `policy_for_pdf_request` implements the spec's priority-ordered
decision table over the Windows, PowerShell and PandocInstalled hypotheses
(first matching row wins), and whenever the OS-and-shell pair of hypotheses
fails it returns the fixed clarifying-question record, whose command field
is the question literal and not a shell command. -/
theorem policy_matches_spec_table (env : EnvironmentStateTracker)
    (path engine : String) :
    policy_for_pdf_request env path engine
      = decide_table_spec (hypothesis env "Windows")
          (hypothesis env "PowerShell") (hypothesis env "PandocInstalled")
          path engine
  ∧ (¬(hypothesis env "Windows" = true ∧ hypothesis env "PowerShell" = true)
      → policy_for_pdf_request env path engine
          = { assumption := "Environment uncertain"
              action := "Ask one clarifying question to establish environment"
              command := "Do you have Pandoc installed and can you run PowerShell on Windows?" }) := by
  constructor
  · cases hW : hypothesis env "Windows" <;>
      cases hP : hypothesis env "PowerShell" <;>
        cases hT : hypothesis env "PandocInstalled" <;>
          simp [policy_for_pdf_request, decide_table_spec, hW, hP, hT]
  · intro h
    cases hW : hypothesis env "Windows" <;>
      cases hP : hypothesis env "PowerShell" <;>
        cases hT : hypothesis env "PandocInstalled" <;>
          simp_all [policy_for_pdf_request]

/-- Witness for C1: with an empty store no hypothesis holds, so the policy
returns the clarifying-question record. -/
theorem policy_matches_spec_table_witness :
    policy_for_pdf_request emptyEnv "notes.md" "xelatex"
      = { assumption := "Environment uncertain"
          action := "Ask one clarifying question to establish environment"
          command := "Do you have Pandoc installed and can you run PowerShell on Windows?" } :=
  (policy_matches_spec_table emptyEnv "notes.md" "xelatex").2
    (by norm_num [hypothesis, emptyEnv, getW])

/-- C2: one `update_weights` call over a duplicate-free token list
recomputes each listed token's weight as `previous * decay + intensity`
(absent tokens counting as `0`); a fresh store therefore holds exactly the
intensity after one call, and a second call with no decay pass between
yields `intensity * decay + intensity`, not twice the intensity. -/
theorem update_set_semantics (d i : ℚ) (m : Weights) (tokens : List String)
    (t : String) (hnd : tokens.Nodup) (ht : t ∈ tokens) :
    getW (update_weights d m tokens i) t = getW m t * d + i
  ∧ getW (update_weights d [] ["X"] i) "X" = i
  ∧ getW (update_weights d (update_weights d [] ["X"] i) ["X"] i) "X"
      = i * d + i := by
  refine ⟨?_, ?_, ?_⟩
  · rw [getW_update_count, List.count_eq_one_of_mem hnd ht]
    simp
  · simp [update_weights, getW, setW]
  · simp [update_weights, getW, setW]

/-- Witness for C2: a single observation of a fresh token. -/
theorem update_set_semantics_witness :
    getW (update_weights (9/10) [] ["A"] (1/2)) "A"
      = getW [] "A" * (9/10) + 1/2 :=
  (update_set_semantics (9/10) (1/2) [] ["A"] "A" (by simp) (by simp)).1

/-- C10: `update_weights` takes a list, not a set, and applies the
decay-and-add step once per occurrence: `k` occurrences of a token in one
call scale its previous weight by `decay^k` and add the intensity scaled by
each intervening decay; a token listed twice ends at
`(prev*decay + i)*decay + i`. -/
theorem update_duplicate_tokens (d i : ℚ) (m : Weights)
    (tokens : List String) (t : String) :
    getW (update_weights d m tokens i) t
      = getW m t * d ^ tokens.count t
        + i * ∑ j ∈ Finset.range (tokens.count t), d ^ j
  ∧ getW (update_weights d m [t, t] i) t = (getW m t * d + i) * d + i := by
  refine ⟨getW_update_count d i m tokens t, ?_⟩
  simp [update_weights, getW_setW_same]

/-- C3: `hypothesis` is true iff the stored weight (`0` when the key is
absent) reaches the threshold; an absent key yields weight `0` rather than
an error, hence a false hypothesis for any positive threshold; and in this
pure embedding `hypothesis` returns only a boolean — replacing the
threshold leaves the stored weights untouched and changes only the decided
boolean. -/
theorem hypothesis_thresholds_weight (tr : EnvironmentStateTracker)
    (key : String) :
    (hypothesis tr key = true ↔ tr.threshold ≤ getW tr.weights key)
  ∧ ((∀ p ∈ tr.weights, p.1 ≠ key) → getW tr.weights key = 0)
  ∧ (0 < tr.threshold → (∀ p ∈ tr.weights, p.1 ≠ key) →
      hypothesis tr key = false)
  ∧ (∀ th' : ℚ,
      (EnvironmentStateTracker.mk tr.decay th' tr.weights).weights
          = tr.weights
      ∧ hypothesis (EnvironmentStateTracker.mk tr.decay th' tr.weights) key
          = decide (th' ≤ getW tr.weights key)) := by
  refine ⟨by simp [hypothesis], getW_eq_zero_of_absent _ _, ?_, ?_⟩
  · intro hth habs
    have h0 := getW_eq_zero_of_absent _ _ habs
    simp only [hypothesis, h0]
    exact decide_eq_false (not_le.mpr hth)
  · intro th'
    exact ⟨rfl, rfl⟩

/-- Witness for C3: the empty store makes the Windows hypothesis false. -/
theorem hypothesis_thresholds_weight_witness :
    hypothesis emptyEnv "Windows" = false :=
  (hypothesis_thresholds_weight emptyEnv "Windows").2.2.1
    (by norm_num [emptyEnv]) (by simp [emptyEnv])

/-- C4: a decay pass multiplies every stored weight by the decay factor and
removes exactly the entries whose scaled weight falls below `1e-6`: no
surviving entry is below `1e-6`, every original entry whose scaled weight
reaches `1e-6` survives with exactly that scaled weight, and every
surviving entry is an original entry scaled by the decay factor. -/
theorem decay_pass_spec (d : ℚ) (m : Weights) :
    (∀ p ∈ decay_weights d m, ¬(p.2 < 1 / 1000000))
  ∧ (∀ k w, (k, w) ∈ m → ¬(w * d < 1 / 1000000) →
      (k, w * d) ∈ decay_weights d m)
  ∧ (∀ k w', (k, w') ∈ decay_weights d m →
      ∃ w, (k, w) ∈ m ∧ w' = w * d ∧ ¬(w' < 1 / 1000000)) := by
  refine ⟨fun p hp => not_lt.mpr (decay_mem_lb d m p hp),
    fun k w hm hge => decay_mem_complete d m k w hm hge,
    fun k w' h => ?_⟩
  obtain ⟨w, hw, hmul⟩ := decay_mem_src d m k w' h
  exact ⟨w, hw, hmul, not_lt.mpr (decay_mem_lb d m (k, w') h)⟩

/-- Witness for C4: decaying a weight-1 entry by one half keeps it at 1/2. -/
theorem decay_pass_spec_witness :
    ("a", (1:ℚ)/2) ∈ decay_weights (1/2) [("a", 1)] := by
  have h := (decay_pass_spec (1/2) [("a", (1:ℚ))]).2.1 "a" 1 (by simp)
    (by norm_num)
  simpa using h

/-- C5: the demo run with decay 0.9 and threshold 0.6: after observing
Windows+PowerShell at 0.7, PandocInstalled+PDFExportSuccess at 0.8 and
PowerShell at 0.6, PowerShell's weight is `0.7*0.9 + 0.6 = 1.23`, all three
policy hypotheses hold, and the policy picks the direct-conversion branch. -/
theorem demo_scenario_direct_conversion :
    getW demoEnv3.weights "PowerShell" = (7/10) * (9/10) + 6/10
  ∧ getW demoEnv3.weights "PowerShell" = 123/100
  ∧ hypothesis demoEnv3 "Windows" = true
  ∧ hypothesis demoEnv3 "PowerShell" = true
  ∧ hypothesis demoEnv3 "PandocInstalled" = true
  ∧ (policy_for_pdf_request demoEnv3 demoPath).action
      = "Provide direct conversion command" := by
  refine ⟨?_, ?_, ?_, ?_, ?_, ?_⟩ <;>
    simp +decide [demoEnv3, demoEnv2, demoEnv1, demoEnv0, observe,
      update_weights, getW, setW, hypothesis, policy_for_pdf_request]
  all_goals norm_num

/-- C6: starting from a fresh store, any sequence of update calls with
positive intensities and decay passes, for a decay factor in `(0, 1]`,
keeps every stored weight non-negative (applied to every prefix of a call
sequence, this covers every point of the run). -/
theorem weights_nonneg_invariant (d : ℚ) (ops : List TrackerOp)
    (hd0 : 0 < d) (hd1 : d ≤ 1) (hops : ∀ op ∈ ops, validOp op) :
    ∀ p ∈ runOps d [] ops, 0 ≤ p.2 :=
  nonnegW_runOps d ops (le_of_lt hd0) [] hops (by intro p hp; simp at hp)

/-- Witness for C6: the weight of `A` after one observation at intensity 1. -/
theorem weights_nonneg_invariant_witness : (0:ℚ) ≤ 1 :=
  weights_nonneg_invariant (9/10) [TrackerOp.observeOp ["A"] 1]
    (by norm_num) (by norm_num)
    (by intro op hop; simp at hop; subst hop; exact one_pos)
    ("A", 1)
    (by norm_num [runOps, applyOp, update_weights, setW, getW])

/-- C7 counterexample: with decay factor exactly 1 — inside the spec's
allowed range `0 < decay ≤ 1` — a stored token's weight never shrinks and
the token is never removed, refuting "eventually removed" as stated. -/
theorem decay_never_removes_at_factor_one :
    ¬ ∃ n : ℕ, hasKey ((decay_weights 1)^[n] [("tok", 1)]) "tok" = false := by
  have hfix : ∀ n : ℕ,
      (decay_weights 1)^[n] [("tok", (1:ℚ))] = [("tok", 1)] := by
    intro n
    induction n with
    | zero => rfl
    | succ n ih =>
        rw [Function.iterate_succ_apply', ih]
        norm_num [decay_weights]
  rintro ⟨n, hn⟩
  rw [hfix n] at hn
  simp [hasKey] at hn

/-- C7 (amended: decay factor strictly between 0 and 1): repeated decay
passes with no intervening update eventually remove any token — after some
finite number of passes its entry is gone from the mapping. -/
theorem decay_eventually_removes (d : ℚ) (m : Weights) (k : String)
    (hd0 : 0 < d) (hd1 : d < 1) :
    ∃ n : ℕ, hasKey ((decay_weights d)^[n] m) k = false := by
  obtain ⟨n, hn⟩ := decay_iterate_eventually_empty d m hd0 hd1
  exact ⟨n, by simp [hn, hasKey]⟩

/-- Witness for C7's amended theorem at decay one half. -/
theorem decay_eventually_removes_witness :
    ∃ n : ℕ, hasKey ((decay_weights (1/2))^[n] [("tok2", 1)]) "tok2" = false :=
  decay_eventually_removes (1/2) [("tok2", 1)] "tok2" (by norm_num)
    (by norm_num)

/-- C8: `get_weights` returns a copy of the internal dict: the returned
reference is a fresh one, its contents equal the internal contents, the
internal dict is untouched by the call, and mutating the returned dict
leaves the internal dict unchanged — subsequent store operations read an
unchanged internal state. -/
theorem get_weights_returns_copy (h : DictHeap) (iref : ℕ)
    (hv : iref < h.cells.length) :
    (get_weights h iref).2 ≠ iref
  ∧ heapGet (get_weights h iref).1 (get_weights h iref).2 = heapGet h iref
  ∧ heapGet (get_weights h iref).1 iref = heapGet h iref
  ∧ ∀ w' : Weights,
      heapGet (heapSet (get_weights h iref).1 (get_weights h iref).2 w') iref
        = heapGet h iref := by
  have hne : h.cells.length ≠ iref := Nat.ne_of_gt hv
  refine ⟨hne, ?_, ?_, ?_⟩
  · simp [get_weights, heapAlloc, heapGet, List.getElem?_concat_length]
  · simp [get_weights, heapAlloc, heapGet, List.getElem?_append_left hv]
  · intro w'
    simp [get_weights, heapAlloc, heapGet, heapSet,
      List.getElem?_set_ne hne, List.getElem?_append_left hv]

/-- Witness for C8 on a one-cell heap. -/
theorem get_weights_returns_copy_witness :
    (get_weights ⟨[[("a", 1)]]⟩ 0).2 ≠ 0 :=
  (get_weights_returns_copy ⟨[[("a", 1)]]⟩ 0 (by simp)).1

/-- C9: `policy_for_pdf_request` is total in the path — every path yields
one of the three fixed records — and in the all-hypotheses-true branch the
command embeds the path with its last three characters removed (all of them
when the path has at most three characters) followed by `.pdf`; there is no
extension check, so a path like `README` silently loses its last three
characters. -/
theorem policy_total_and_slice (env : EnvironmentStateTracker)
    (path engine : String) :
    ((policy_for_pdf_request env path engine).action
        = "Provide direct conversion command"
      ∨ (policy_for_pdf_request env path engine).action
        = "Offer install path then conversion command"
      ∨ (policy_for_pdf_request env path engine).action
        = "Ask one clarifying question to establish environment")
  ∧ (hypothesis env "Windows" = true → hypothesis env "PowerShell" = true →
      hypothesis env "PandocInstalled" = true →
      (policy_for_pdf_request env path engine).command
        = "pandoc \"" ++ path ++ "\" -o \"" ++ path.take (path.length - 3)
          ++ ".pdf\" --pdf-engine=" ++ engine)
  ∧ (path.length ≤ 3 → path.take (path.length - 3) = "")
  ∧ (policy_for_pdf_request allToolsEnv "README" "xelatex").command
      = "pandoc \"README\" -o \"REA.pdf\" --pdf-engine=xelatex" := by
  refine ⟨?_, ?_, ?_, ?_⟩
  · cases hW : hypothesis env "Windows" <;>
      cases hP : hypothesis env "PowerShell" <;>
        cases hT : hypothesis env "PandocInstalled" <;>
          simp [policy_for_pdf_request, hW, hP, hT]
  · intro hW hP hT
    simp [policy_for_pdf_request, hW, hP, hT]
  · intro h
    have h0 : path.length - 3 = 0 := Nat.sub_eq_zero_of_le h
    rw [h0, String.take_eq]
    rfl
  · simp +decide [policy_for_pdf_request, hypothesis, getW, allToolsEnv]
    norm_num
    decide

/-- Witness for C9: a two-character path is stripped to the empty string. -/
theorem policy_total_and_slice_witness :
    ("ab" : String).take ("ab".length - 3) = "" :=
  (policy_total_and_slice allToolsEnv "ab" "xelatex").2.2.1 (by decide)
